import Mathlib

/-!
Verification of the reWeFDE information-leakage estimation core
(`analysis/fingerprint_modeler.py` and `info_leakage/kde_wrapper.py`)
against its natural-language specification.

The Python code is shallowly embedded: floating-point values are modelled
by exact rationals, extended with the IEEE special values where the code's
control flow depends on them (`PFloat` below); fallible operations (list
indexing, assertions, exception handlers) return `Except`.
-/

/-- Model of an IEEE floating-point value as used by the numpy code:
an exact finite rational, plus the special values `inf`, `-inf` and `nan`. -/
inductive PFloat where
  | fin (q : ℚ)
  | pinf
  | ninf
  | nan
deriving DecidableEq, Repr

namespace PFloat

/-- `np.isnan` on one value. -/
def isNan : PFloat → Bool
  | nan => true
  | _ => false

/-- `np.isinf` on one value (true for either infinity). -/
def isInf : PFloat → Bool
  | pinf => true
  | ninf => true
  | _ => false

/-- IEEE comparison `x == 0.0` (false for `nan` and the infinities). -/
def beqZero : PFloat → Bool
  | fin q => q == 0
  | _ => false

/-- IEEE addition. -/
def add : PFloat → PFloat → PFloat
  | nan, _ => nan
  | _, nan => nan
  | pinf, ninf => nan
  | ninf, pinf => nan
  | pinf, _ => pinf
  | _, pinf => pinf
  | ninf, _ => ninf
  | _, ninf => ninf
  | fin a, fin b => fin (a + b)

/-- IEEE multiplication. -/
def mul : PFloat → PFloat → PFloat
  | nan, _ => nan
  | _, nan => nan
  | fin a, fin b => fin (a * b)
  | pinf, fin b => if 0 < b then pinf else if b < 0 then ninf else nan
  | fin a, pinf => if 0 < a then pinf else if a < 0 then ninf else nan
  | ninf, fin b => if 0 < b then ninf else if b < 0 then pinf else nan
  | fin a, ninf => if 0 < a then ninf else if a < 0 then pinf else nan
  | pinf, pinf => pinf
  | ninf, ninf => pinf
  | pinf, ninf => ninf
  | ninf, pinf => ninf

/-- IEEE negation. -/
def neg : PFloat → PFloat
  | fin q => fin (-q)
  | pinf => ninf
  | ninf => pinf
  | nan => nan

/-- Sum of a list of values (as taken by `np.mean`). -/
def sumP (l : List PFloat) : PFloat := l.foldr add (fin 0)

/-- Division of a value by a natural count; division by a zero count is the
IEEE indeterminate `0/0 = nan` (`np.mean` of an empty array). -/
def divNat : PFloat → ℕ → PFloat
  | _, 0 => nan
  | fin q, n => fin (q / n)
  | pinf, _ => pinf
  | ninf, _ => ninf
  | nan, _ => nan

/-- `np.mean` of a list of values. -/
def meanP (l : List PFloat) : PFloat := divNat (sumP l) l.length

end PFloat

/-! ### C1: the `try`/`except not KeyboardInterrupt` wrapper of
`WebsiteFingerprintModeler.information_leakage` (fingerprint_modeler.py
lines 127-199). -/

/-- Python exception classes relevant to `information_leakage`. -/
inductive PyExc where
  | keyboardInterrupt
  | valueError
  | typeError
  | runtimeError
deriving DecidableEq, Repr

/-- A Python value appearing in `except`-clause position: either an
exception class, or a plain boolean (what `not <class>` evaluates to). -/
inductive PyVal where
  | excClass (e : PyExc)
  | bool (b : Bool)
deriving DecidableEq, Repr

/-- Python truthiness: a class object is truthy, a boolean is itself. -/
def pyTruthy : PyVal → Bool
  | .excClass _ => true
  | .bool b => b

/-- Python `not`: negated truthiness, always yielding a boolean. -/
def pyNot (v : PyVal) : PyVal := .bool (!pyTruthy v)

/-- Matching of a raised exception against an `except`-clause value: an
exception instance matches its class; a non-class value (in particular the
boolean `False`) matches no exception at all. -/
def exceptMatches : PyVal → PyExc → Bool
  | .excClass c, e => c == e
  | .bool _, _ => false

/-- The handler expression at fingerprint_modeler.py line 195,
`not KeyboardInterrupt`: `KeyboardInterrupt` is a truthy class object, so
the clause evaluates to the boolean `False`. -/
def handlerClause : PyVal := pyNot (.excClass .keyboardInterrupt)

/-- The `try`/`except` structure of `information_leakage` (lines 127-199).
The body's outcome is passed in as an `Except`: `ok v` models the leakage
computation returning the float `v`, `error e` models it raising `e`.
On an exception the single handler `except not KeyboardInterrupt:` is
consulted; if it matches, the code logs and returns `None` (line 199),
otherwise the exception propagates out of the method. -/
def informationLeakage (body : Except PyExc ℚ) : Except PyExc (Option ℚ) :=
  match body with
  | .ok v => .ok (some v)
  | .error e => if exceptMatches handlerClause e then .ok none else .error e

/-! ### C2: `AKDE.entropy(data)` (kde_wrapper.py lines 101-106). -/

/-- kde_wrapper.py line 103, `np.any(probs[probs == 0.])`: boolean-mask
selection of the entries equal to zero, followed by `np.any`, i.e. a
truthiness (non-zero) test over the selected entries.  Every selected entry
is zero, so this is constantly false. -/
def entropyZeroGuard (probs : List ℚ) : Bool :=
  (probs.filter (fun p => p == 0)).any (fun p => p != 0)

/-- The `data is not None` branch of `AKDE.entropy` (lines 101-106):
`probs` are the predicted densities of the evaluation points, `lg` models
`np.log` (so `lg 0 = -inf` in IEEE semantics); if the zero-density guard
fires the code returns `-np.inf`, otherwise `-np.mean(np.log(probs))`. -/
def entropyData (lg : ℚ → PFloat) (probs : List ℚ) : PFloat :=
  if entropyZeroGuard probs then PFloat.ninf
  else PFloat.neg (PFloat.meanP (probs.map lg))

/-- The guard on line 103 is identically false: the mask `probs == 0.`
selects only zero entries, and `np.any` of an all-zero selection is false. -/
theorem entropyZeroGuard_false (probs : List ℚ) : entropyZeroGuard probs = false := by
  unfold entropyZeroGuard
  rw [List.any_eq_false]
  intro p hp
  rcases List.mem_filter.mp hp with ⟨_, hz⟩
  simp only [beq_iff_eq] at hz
  simp [hz]

/-- Claim C1 (code_bug): the claim states that any exception other than
`KeyboardInterrupt` raised during the leakage computation is caught inside
`information_leakage` and converted to the return value `None`.  The code's
handler clause `except not KeyboardInterrupt` evaluates to the boolean
`False`, which matches no exception, so every exception — not only
`KeyboardInterrupt` — propagates out and `None` is never produced from an
error; this contradicts the code's own comment ("in cases where there is an
unknown error, save leakage as N/A") at lines 196-197. -/
theorem informationLeakage_uncaught_exception :
    informationLeakage (.error .valueError) = .error .valueError
    ∧ informationLeakage (.error .keyboardInterrupt) = .error .keyboardInterrupt
    ∧ ∀ e : PyExc, informationLeakage (.error e) ≠ .ok none := by
  refine ⟨rfl, rfl, ?_⟩
  intro e
  cases e <;> simp [informationLeakage, exceptMatches, handlerClause, pyNot, pyTruthy]

/-- Claim C2 (code_bug): the claim (and the spec) state that
`entropy(data)` returns `-inf` when some evaluated point has exactly zero
density.  Because the guard on line 103 is identically false, the code
instead falls through to `-np.mean(np.log(probs))`, where `log 0 = -inf`
makes the mean `-inf` and the leading negation turns the result into
`+inf` — never `-inf`. -/
theorem entropy_zero_density_returns_pos_inf (lg : ℚ → PFloat)
    (hlg : lg 0 = PFloat.ninf) :
    entropyData lg [0] = PFloat.pinf ∧ entropyData lg [0] ≠ PFloat.ninf := by
  have hguard : entropyZeroGuard [0] = false := entropyZeroGuard_false [0]
  constructor
  · unfold entropyData
    rw [hguard]
    simp [hlg, PFloat.meanP, PFloat.sumP, PFloat.divNat, PFloat.add, PFloat.neg]
  · unfold entropyData
    rw [hguard]
    simp [hlg, PFloat.meanP, PFloat.sumP, PFloat.divNat, PFloat.add, PFloat.neg]

/-- Witness for C2's theorem at the concrete log function `fun _ => -inf`. -/
theorem entropy_zero_density_returns_pos_inf_witness :
    ((fun _ : ℚ => PFloat.ninf) 0 = PFloat.ninf)
    ∧ (entropyData (fun _ : ℚ => PFloat.ninf) [0] = PFloat.pinf
       ∧ entropyData (fun _ : ℚ => PFloat.ninf) [0] ≠ PFloat.ninf) :=
  ⟨rfl, entropy_zero_density_returns_pos_inf (fun _ : ℚ => PFloat.ninf) rfl⟩

/-! ### C3/C4/C5: `AKDE.__init__` bandwidth selection, zero-substitution and
the internal `KDEMultivariate` fit (kde_wrapper.py lines 28-40), together
with `AKDE.predict` (lines 78-95). -/

/-- kde_wrapper.py line 37, `self._bw = bw + (bw == 0.)*0.001`: the boolean
mask `bw == 0.` is upcast to `1.0`/`0.0`, scaled by `0.001`, and added. -/
def bwSubst (bw : List PFloat) : List PFloat :=
  bw.map (fun b =>
    b.add ((PFloat.fin (if b.beqZero then 1 else 0)).mul (PFloat.fin (1/1000))))

/-- The degeneracy test of line 34: `np.isnan(bw).any() or np.isinf(bw).any()`
on one component. -/
def isDegenerate (c : PFloat) : Bool := c.isNan || c.isInf

/-- kde_wrapper.py lines 32-35: if no bandwidth is given, compute it with
`self._ksizeHall`, and if any component of the result is NaN or infinite
recompute it with `self._ksizeROT`.  The two solvers are passed in as
functions of the training data (their numerics are modelled separately). -/
def selectBw {δ : Type} (ksizeHall ksizeROT : δ → List PFloat) (data : δ)
    (bwOpt : Option (List PFloat)) : List PFloat :=
  match bwOpt with
  | some bw => bw
  | none =>
    let bw := ksizeHall data
    if bw.any isDegenerate then ksizeROT data else bw

/-- The fitted state built by `AKDE.__init__`: `bwStored` is `self._bw`
(line 37, after zero-substitution; the vector `sample` reads at line 56),
and `kdeFitBw` is the bandwidth handed to
`sm.nonparametric.KDEMultivariate(self._data, var_vector, bw=bw)` at
line 40 — the local `bw`, before the substitution of line 37. -/
structure AKDEState where
  bwStored : List PFloat
  kdeFitBw : List PFloat
deriving DecidableEq, Repr

/-- `AKDE.__init__` (lines 28-40), restricted to the bandwidth dataflow. -/
def akdeInit {δ : Type} (ksizeHall ksizeROT : δ → List PFloat) (data : δ)
    (bwOpt : Option (List PFloat)) : AKDEState :=
  let bw := selectBw ksizeHall ksizeROT data bwOpt
  { bwStored := bwSubst bw, kdeFitBw := bw }

/-- `AKDE.predict` (lines 78-95) returns `self._kde.pdf(data)`: the density
evaluator is the `KDEMultivariate` fitted at construction, abstracted here
as a pdf function of the bandwidth it was fitted with. -/
def predictModel {μ : Type} (pdf : List PFloat → μ → List PFloat)
    (s : AKDEState) (x : μ) : List PFloat :=
  pdf s.kdeFitBw x

/-- Pointwise description of the zero-substitution of line 37. -/
theorem bwSubst_elem (b : PFloat) :
    b.add ((PFloat.fin (if b.beqZero then 1 else 0)).mul (PFloat.fin (1/1000)))
      = if b = PFloat.fin 0 then PFloat.fin (1/1000) else b := by
  cases b with
  | fin q =>
    by_cases hq : q = 0
    · subst hq
      simp [PFloat.beqZero, PFloat.mul, PFloat.add]
    · simp [PFloat.beqZero, hq, PFloat.mul, PFloat.add]
  | pinf => simp [PFloat.beqZero, PFloat.mul, PFloat.add]
  | ninf => simp [PFloat.beqZero, PFloat.mul, PFloat.add]
  | nan => simp [PFloat.beqZero, PFloat.mul, PFloat.add]

/-- `List.getD` through a `List.map`, for an in-range index. -/
theorem getD_map_of_lt {α β : Type} (f : α → β) (l : List α) (i : ℕ)
    (h : i < l.length) (d : β) (d0 : α) :
    (l.map f).getD i d = f (l.getD i d0) := by
  induction l generalizing i with
  | nil => simp at h
  | cons x xs ih =>
    cases i with
    | zero => simp
    | succ j =>
      simp only [List.map_cons, List.getD_cons_succ]
      exact ih j (by simpa using h)

/-- No component of a substituted bandwidth vector is exactly zero. -/
theorem bwSubst_no_zero (bw : List PFloat) :
    ∀ c ∈ bwSubst bw, c ≠ PFloat.fin 0 := by
  intro c hc
  simp only [bwSubst, List.mem_map] at hc
  rcases hc with ⟨b, _, rfl⟩
  rw [bwSubst_elem]
  split
  · simp only [ne_eq, PFloat.fin.injEq]
    norm_num
  · assumption

/-- Claim C3 (confirmed): after `__init__` (with a given or auto-selected
bandwidth) the stored bandwidth vector `self._bw` contains no exact zero
component, and every exact-zero component of the selected bandwidth has
been replaced by the constant `0.001`. -/
theorem akde_bandwidth_no_zero_component {δ : Type}
    (ksizeHall ksizeROT : δ → List PFloat) (data : δ)
    (bwOpt : Option (List PFloat)) :
    (∀ c ∈ (akdeInit ksizeHall ksizeROT data bwOpt).bwStored, c ≠ PFloat.fin 0)
    ∧ ∀ i, i < (selectBw ksizeHall ksizeROT data bwOpt).length →
        (selectBw ksizeHall ksizeROT data bwOpt).getD i PFloat.nan = PFloat.fin 0 →
        (akdeInit ksizeHall ksizeROT data bwOpt).bwStored.getD i PFloat.nan
          = PFloat.fin (1/1000) := by
  constructor
  · exact bwSubst_no_zero _
  · intro i hi hzero
    show (bwSubst (selectBw ksizeHall ksizeROT data bwOpt)).getD i PFloat.nan
      = PFloat.fin (1/1000)
    rw [bwSubst]
    rw [getD_map_of_lt _ _ i hi PFloat.nan PFloat.nan]
    rw [bwSubst_elem, hzero]
    simp

/-- Witness for C3's theorem at the explicit bandwidth `[0, 3]` (so the
selected bandwidth has a zero component in position 0). -/
theorem akde_bandwidth_no_zero_component_witness :
    0 < (selectBw (fun _ : Unit => []) (fun _ => []) ()
          (some [PFloat.fin 0, PFloat.fin 3])).length
    ∧ (akdeInit (fun _ : Unit => []) (fun _ => []) ()
          (some [PFloat.fin 0, PFloat.fin 3])).bwStored.getD 0 PFloat.nan
        = PFloat.fin (1/1000) :=
  ⟨by decide,
   (akde_bandwidth_no_zero_component (fun _ : Unit => []) (fun _ => []) ()
      (some [PFloat.fin 0, PFloat.fin 3])).2 0 (by decide) (by decide)⟩

/-- Claim C4 (confirmed): when the selected bandwidth contains an exact-zero
component, the internal `KDEMultivariate` that `predict` delegates to was
fitted with the original, pre-substitution bandwidth (zero included); the
`0.001` replacement affects only the stored vector `self._bw` that `sample`
reads, so density evaluation is not protected by the substitution. -/
theorem akde_predict_uses_presubstitution_bandwidth {δ μ : Type}
    (ksizeHall ksizeROT : δ → List PFloat) (data : δ)
    (pdf : List PFloat → μ → List PFloat) (x : μ)
    (bw : List PFloat) (hzero : PFloat.fin 0 ∈ bw) :
    (akdeInit ksizeHall ksizeROT data (some bw)).kdeFitBw = bw
    ∧ PFloat.fin 0 ∈ (akdeInit ksizeHall ksizeROT data (some bw)).kdeFitBw
    ∧ predictModel pdf (akdeInit ksizeHall ksizeROT data (some bw)) x = pdf bw x
    ∧ (akdeInit ksizeHall ksizeROT data (some bw)).bwStored = bwSubst bw
    ∧ PFloat.fin 0 ∉ (akdeInit ksizeHall ksizeROT data (some bw)).bwStored := by
  refine ⟨rfl, hzero, rfl, rfl, ?_⟩
  exact fun h => bwSubst_no_zero bw _ h rfl

/-- Witness for C4's theorem at the one-component zero bandwidth `[0]`. -/
theorem akde_predict_uses_presubstitution_bandwidth_witness :
    PFloat.fin 0 ∈ [PFloat.fin 0]
    ∧ ((akdeInit (fun _ : Unit => []) (fun _ => []) () (some [PFloat.fin 0])).kdeFitBw
         = [PFloat.fin 0]
       ∧ PFloat.fin 0 ∈ (akdeInit (fun _ : Unit => []) (fun _ => []) ()
           (some [PFloat.fin 0])).kdeFitBw
       ∧ predictModel (fun (b : List PFloat) (_ : Unit) => b)
           (akdeInit (fun _ : Unit => []) (fun _ => []) () (some [PFloat.fin 0])) ()
           = (fun (b : List PFloat) (_ : Unit) => b) [PFloat.fin 0] ()
       ∧ (akdeInit (fun _ : Unit => []) (fun _ => []) () (some [PFloat.fin 0])).bwStored
           = bwSubst [PFloat.fin 0]
       ∧ PFloat.fin 0 ∉ (akdeInit (fun _ : Unit => []) (fun _ => []) ()
           (some [PFloat.fin 0])).bwStored) :=
  ⟨by simp,
   akde_predict_uses_presubstitution_bandwidth (fun _ : Unit => []) (fun _ => []) ()
     (fun (b : List PFloat) (_ : Unit) => b) () [PFloat.fin 0] (by simp)⟩

/-- Claim C5 (confirmed): with no explicit bandwidth, the Hall plug-in
result is used unless one of its components is NaN or infinite, in which
case the bandwidth is recomputed with the Rule-of-Thumb solver; the
degenerate Hall result then reaches neither the stored bandwidth nor the
internal KDE fit. -/
theorem akde_bandwidth_hall_fallback_rot {δ : Type}
    (ksizeHall ksizeROT : δ → List PFloat) (data : δ) :
    ((ksizeHall data).any isDegenerate = true →
       (akdeInit ksizeHall ksizeROT data none).kdeFitBw = ksizeROT data
       ∧ (akdeInit ksizeHall ksizeROT data none).bwStored = bwSubst (ksizeROT data))
    ∧ ((ksizeHall data).any isDegenerate = false →
       (akdeInit ksizeHall ksizeROT data none).kdeFitBw = ksizeHall data
       ∧ (akdeInit ksizeHall ksizeROT data none).bwStored = bwSubst (ksizeHall data)) := by
  constructor
  · intro h
    constructor <;> simp [akdeInit, selectBw, h]
  · intro h
    constructor <;> simp [akdeInit, selectBw, h]

/-- Witness for C5's theorem: a Hall solver returning `[nan]` (degenerate)
is replaced by the Rule-of-Thumb result `[2]`. -/
theorem akde_bandwidth_hall_fallback_rot_witness :
    (((fun _ : Unit => [PFloat.nan]) ()).any isDegenerate = true →
       (akdeInit (fun _ : Unit => [PFloat.nan]) (fun _ => [PFloat.fin 2]) () none).kdeFitBw
         = (fun _ : Unit => [PFloat.fin 2]) ()
       ∧ (akdeInit (fun _ : Unit => [PFloat.nan]) (fun _ => [PFloat.fin 2]) () none).bwStored
         = bwSubst ((fun _ : Unit => [PFloat.fin 2]) ()))
    ∧ (((fun _ : Unit => [PFloat.nan]) ()).any isDegenerate = true) :=
  ⟨(akde_bandwidth_hall_fallback_rot (fun _ : Unit => [PFloat.nan])
      (fun _ => [PFloat.fin 2]) ()).1, by decide⟩

/-! ### C7: `WebsiteFingerprintModeler._sample`
(fingerprint_modeler.py lines 89-103). -/

/-- Python `int()` applied to a float holding the exact rational `q`:
truncation toward zero. -/
def truncQ (q : ℚ) : ℤ := Int.tdiv q.num q.den

/-- For a non-negative value, Python `int()` truncation agrees with the
floor. -/
theorem truncQ_eq_floor (q : ℚ) (h : 0 ≤ q) : truncQ q = ⌊q⌋ := by
  rw [Rat.floor_def]
  exact Int.tdiv_eq_ediv (Rat.num_nonneg.mpr h) (by exact_mod_cast Nat.zero_le q.den)

/-- The inner loop of `_sample` over one cluster's site models
(fingerprint_modeler.py lines 91-101): for each `(site, mkde)` pair of
`zip(self.data.sites, site_mkdes)`, compute
`num = int(sample_size * web_priors[site])` and, when `num > 0`, extend the
pooled list with `mkde.sample(num)`.  Sampling is abstracted as the
function `draw`, one model producing `k` samples on request `k`. -/
def groupDraw {ι κ σ : Type} (draw : κ → ℕ → List σ) (sites : List ι)
    (mkdes : List κ) (priors : ι → ℚ) (budget : ℕ) : List σ :=
  (sites.zip mkdes).foldl
    (fun acc sk =>
      let num := truncQ (budget * priors sk.1)
      if 0 < num then acc ++ draw sk.2 num.toNat else acc) []

/-- `_sample` (lines 89-103): one pooled sample list per cluster. -/
def sampleClusters {ι κ σ : Type} (draw : κ → ℕ → List σ) (sites : List ι)
    (priors : ι → ℚ) (budget : ℕ) (mkdess : List (List κ)) : List (List σ) :=
  mkdess.map (fun g => groupDraw draw sites g priors budget)

/-- The per-site contribution to a pooled cluster sample. -/
def siteDraw {ι κ σ : Type} (draw : κ → ℕ → List σ) (priors : ι → ℚ)
    (budget : ℕ) (sk : ι × κ) : List σ :=
  if 0 < truncQ (budget * priors sk.1)
  then draw sk.2 (truncQ (budget * priors sk.1)).toNat
  else []

/-- The `_sample` fold is the concatenation of the per-site draws (empty
for sites whose allotment is not positive). -/
theorem groupDraw_eq_join {ι κ σ : Type} (draw : κ → ℕ → List σ)
    (sites : List ι) (mkdes : List κ) (priors : ι → ℚ) (budget : ℕ) :
    groupDraw draw sites mkdes priors budget
      = ((sites.zip mkdes).map (siteDraw draw priors budget)).flatten := by
  unfold groupDraw
  generalize sites.zip mkdes = l
  have key : ∀ (l : List (ι × κ)) (acc : List σ),
      l.foldl (fun acc sk =>
        let num := truncQ (budget * priors sk.1)
        if 0 < num then acc ++ draw sk.2 num.toNat else acc) acc
      = acc ++ (l.map (siteDraw draw priors budget)).flatten := by
    intro l
    induction l with
    | nil => intro acc; simp
    | cons x xs ih =>
      intro acc
      simp only [List.foldl_cons, List.map_cons, List.flatten_cons]
      by_cases hx : 0 < truncQ (budget * priors x.1)
      · rw [if_pos hx, ih, siteDraw, if_pos hx, List.append_assoc]
      · rw [if_neg hx, ih, siteDraw, if_neg hx, List.nil_append]
  simpa using key l []

/-- Each site contributes exactly the floor of its allotment. -/
theorem siteDraw_length {ι κ σ : Type} (draw : κ → ℕ → List σ)
    (priors : ι → ℚ) (budget : ℕ) (sk : ι × κ)
    (hdraw : ∀ m k, (draw m k).length = k) (hs : 0 ≤ priors sk.1) :
    (siteDraw draw priors budget sk).length = (⌊(budget : ℚ) * priors sk.1⌋).toNat := by
  have hnn : (0 : ℚ) ≤ (budget : ℚ) * priors sk.1 :=
    mul_nonneg (by positivity) hs
  have htr : truncQ ((budget : ℚ) * priors sk.1) = ⌊(budget : ℚ) * priors sk.1⌋ :=
    truncQ_eq_floor _ hnn
  unfold siteDraw
  rw [htr]
  by_cases hx : 0 < ⌊(budget : ℚ) * priors sk.1⌋
  · rw [if_pos hx, hdraw]
  · rw [if_neg hx]
    have h0 : ⌊(budget : ℚ) * priors sk.1⌋ = 0 :=
      le_antisymm (by omega) (Int.floor_nonneg.mpr hnn)
    simp [h0]

/-- Scaled floors of non-negative values sum to at most the scale times the
sum of the values. -/
theorem sum_toNat_floor_le {b : ℕ} {l : List ℚ} (hl : ∀ p ∈ l, 0 ≤ p) :
    ((l.map (fun p => (⌊(b : ℚ) * p⌋).toNat)).sum : ℚ) ≤ (b : ℚ) * l.sum := by
  induction l with
  | nil => simp
  | cons p xs ih =>
    have hp : 0 ≤ p := hl p (List.mem_cons_self p xs)
    have hbp : (0 : ℚ) ≤ (b : ℚ) * p := mul_nonneg (by positivity) hp
    have hfl : (0 : ℤ) ≤ ⌊(b : ℚ) * p⌋ := Int.floor_nonneg.mpr hbp
    have h1 : ((⌊(b : ℚ) * p⌋.toNat : ℚ)) ≤ (b : ℚ) * p := by
      have hcast : ((⌊(b : ℚ) * p⌋.toNat : ℤ) : ℚ) ≤ (b : ℚ) * p := by
        rw [Int.toNat_of_nonneg hfl]
        exact Int.floor_le _
      exact_mod_cast hcast
    have h2 := ih (fun q hq => hl q (List.mem_cons_of_mem p hq))
    simp only [List.map_cons, List.sum_cons, mul_add]
    push_cast
    push_cast at h1 h2
    linarith

/-- Priors over the zipped site list sum to no more than priors over the
full site list, when all priors are non-negative. -/
theorem zip_priors_sum_le {ι κ : Type} (priors : ι → ℚ) :
    ∀ (sites : List ι) (mkdes : List κ), (∀ s ∈ sites, 0 ≤ priors s) →
      ((sites.zip mkdes).map (fun sk => priors sk.1)).sum
        ≤ (sites.map priors).sum := by
  intro sites
  induction sites with
  | nil => intro mkdes _; simp
  | cons s ss ih =>
    intro mkdes hpos
    cases mkdes with
    | nil =>
      simp only [List.zip_nil_right, List.map_nil, List.sum_nil, List.map_cons,
        List.sum_cons]
      have hrest : (0 : ℚ) ≤ (ss.map priors).sum := by
        apply List.sum_nonneg
        intro x hx
        rcases List.mem_map.mp hx with ⟨y, hy, rfl⟩
        exact hpos y (List.mem_cons_of_mem s hy)
      have hs : 0 ≤ priors s := hpos s (List.mem_cons_self s ss)
      linarith
    | cons m ms =>
      simp only [List.zip_cons_cons, List.map_cons, List.sum_cons]
      have := ih ms (fun x hx => hpos x (List.mem_cons_of_mem s hx))
      linarith

/-- Claim C7 (confirmed): for every list of per-site model groups, prior
vector (non-negative, total at most 1) and sample budget, `_sample` draws
exactly `floor(budget * prior)` samples from each site's model, skips sites
with zero allotment, concatenates each cluster's draws into one pooled
list, and the pooled count per cluster is at most the budget. -/
theorem sample_allocation_floor_budget {ι κ σ : Type} (draw : κ → ℕ → List σ)
    (sites : List ι) (priors : ι → ℚ) (budget : ℕ) (mkdess : List (List κ))
    (hdraw : ∀ m k, (draw m k).length = k)
    (hpos : ∀ s ∈ sites, 0 ≤ priors s)
    (hsum : (sites.map priors).sum ≤ 1) :
    sampleClusters draw sites priors budget mkdess
      = mkdess.map (fun g => groupDraw draw sites g priors budget)
    ∧ ∀ g ∈ mkdess,
        (groupDraw draw sites g priors budget
          = ((sites.zip g).map (siteDraw draw priors budget)).flatten)
        ∧ (groupDraw draw sites g priors budget).length
            = ((sites.zip g).map (fun sk => (⌊(budget : ℚ) * priors sk.1⌋).toNat)).sum
        ∧ (groupDraw draw sites g priors budget).length ≤ budget := by
  have hlen : ∀ g : List κ,
      (groupDraw draw sites g priors budget).length
        = ((sites.zip g).map (fun sk => (⌊(budget : ℚ) * priors sk.1⌋).toNat)).sum := by
    intro g
    rw [groupDraw_eq_join draw sites g priors budget, List.length_flatten,
      List.map_map]
    apply congrArg
    apply List.map_congr_left
    intro sk hsk
    exact siteDraw_length draw priors budget sk hdraw
      (hpos sk.1 (List.of_mem_zip hsk).1)
  refine ⟨rfl, fun g _ => ⟨groupDraw_eq_join draw sites g priors budget, hlen g, ?_⟩⟩
  rw [hlen g]
  have hmapmap : ((sites.zip g).map (fun sk => (⌊(budget : ℚ) * priors sk.1⌋).toNat))
      = (((sites.zip g).map (fun sk => priors sk.1)).map
          (fun p => (⌊(budget : ℚ) * p⌋).toNat)) := by
    rw [List.map_map]
    rfl
  rw [hmapmap]
  have hnn2 : ∀ p ∈ (sites.zip g).map (fun sk => priors sk.1), 0 ≤ p := by
    intro p hp
    rcases List.mem_map.mp hp with ⟨sk, hsk, rfl⟩
    exact hpos sk.1 (List.of_mem_zip hsk).1
  have hle : (((((sites.zip g).map (fun sk => priors sk.1)).map
      (fun p => (⌊(budget : ℚ) * p⌋).toNat)).sum : ℕ) : ℚ) ≤ (budget : ℚ) :=
    calc (((((sites.zip g).map (fun sk => priors sk.1)).map
        (fun p => (⌊(budget : ℚ) * p⌋).toNat)).sum : ℕ) : ℚ)
        ≤ (budget : ℚ) * ((sites.zip g).map (fun sk => priors sk.1)).sum :=
          sum_toNat_floor_le hnn2
      _ ≤ (budget : ℚ) * 1 := by
          apply mul_le_mul_of_nonneg_left _ (by positivity)
          exact le_trans (zip_priors_sum_le priors sites g hpos) hsum
      _ = (budget : ℚ) := mul_one _
  exact_mod_cast hle

/-- Witness for C7's theorem: two sites with uniform priors `1/2` and a
budget of 5; each site is allotted `floor(5/2) = 2` samples, so the pooled
cluster holds 4 ≤ 5 samples. -/
theorem sample_allocation_floor_budget_witness :
    ((([0, 1] : List ℕ).map (fun _ => (1/2 : ℚ))).sum ≤ 1)
    ∧ (groupDraw (fun (_ : ℕ) (k : ℕ) => List.replicate k (0 : ℕ)) [0, 1] [7, 8]
        (fun _ => (1/2 : ℚ)) 5).length ≤ 5 := by
  constructor
  · simp
    norm_num
  · exact ((sample_allocation_floor_budget
      (fun (_ : ℕ) (k : ℕ) => List.replicate k (0 : ℕ)) [0, 1]
      (fun _ => (1/2 : ℚ)) 5 [[7, 8]]
      (fun _ k => List.length_replicate k 0)
      (fun _ _ => by norm_num)
      (by simp; norm_num)).2 [7, 8] (by simp)).2.2

/-! ### C8: the posterior-normalization drift check of
`information_leakage` (fingerprint_modeler.py lines 170-184). -/

/-- Line 176's condition on one normalized per-sample posterior row:
`sum(prob_inst) < 0.99`. -/
def warnCheck (row : List ℚ) : Bool := row.sum < 99/100

/-- Lines 175-177: the rows for which `logger.warn` fires. -/
def warnedRows (rows : List (List ℚ)) : List (List ℚ) := rows.filter warnCheck

/-- Line 180, the per-sample Shannon entropy term:
`sum([h(prob) for prob in prob_inst if prob > 0])`, with
`h(x) = -x*log2(x)` abstracted as `h2`. -/
def rowEntropy (h2 : ℚ → ℚ) (row : List ℚ) : ℚ :=
  ((row.filter (fun p => 0 < p)).map h2).sum

/-- Line 184: `H_CF = sum(entropies)/len(entropies)`, computed over every
row of `prob_indiv` — warned or not. -/
def condEntropyOf (h2 : ℚ → ℚ) (rows : List (List ℚ)) : ℚ :=
  ((rows.map (rowEntropy h2)).sum) / rows.length

/-- Counterexample for claim C8 as stated: the row `[51/100, 51/100]` sums
to `1.02`, deviating from 1 by `0.02 > 0.01`, yet the code's check
`sum(prob_inst) < 0.99` does not fire, so no warning is emitted. -/
theorem normalization_warning_counterexample :
    |([(51 : ℚ)/100, 51/100].sum) - 1| > 1/100
    ∧ warnCheck [(51 : ℚ)/100, 51/100] = false
    ∧ warnedRows [[(51 : ℚ)/100, 51/100]] = [] := by
  have habs : |([(51 : ℚ)/100, 51/100].sum) - 1| = 1/50 := by
    rw [List.sum_cons, List.sum_cons, List.sum_nil]
    rw [abs_of_pos] <;> norm_num
  refine ⟨by rw [habs]; norm_num, ?_, ?_⟩
  · simp only [warnCheck, List.sum_cons, List.sum_nil]
    norm_num
  · simp only [warnedRows, List.filter, warnCheck, List.sum_cons, List.sum_nil]
    norm_num

/-- Claim C8 (corrected): the code warns exactly when a normalized
posterior row's sum falls below `0.99` — a deviation of more than `0.01`
below 1; deviations above 1 are not flagged.  The check is non-fatal
either way: every row, warned or not, contributes its entropy term to the
conditional-entropy average, which is always computed. -/
theorem normalization_warning_amended (h2 : ℚ → ℚ) (rows : List (List ℚ))
    (row : List ℚ) (hrow : row ∈ rows) :
    (1 - row.sum > 1/100 → warnCheck row = true)
    ∧ (warnCheck row = true ↔ row.sum < 99/100)
    ∧ (condEntropyOf h2 rows) * rows.length = (rows.map (rowEntropy h2)).sum := by
  refine ⟨?_, ?_, ?_⟩
  · intro hdev
    simp only [warnCheck, decide_eq_true_eq]
    linarith
  · simp only [warnCheck, decide_eq_true_eq]
  · have hne : rows ≠ [] := by
      intro h
      rw [h] at hrow
      exact (List.not_mem_nil row) hrow
    have hlen : (rows.length : ℚ) ≠ 0 := by
      simp only [ne_eq, Nat.cast_eq_zero, List.length_eq_zero]
      exact hne
    rw [condEntropyOf, div_mul_cancel₀ _ hlen]

/-- Witness for C8's amended theorem: a degenerate all-zero posterior row
(sum 0, deviation 1 below the target) is flagged by the check, and the
entropy average is still computed over both rows. -/
theorem normalization_warning_amended_witness :
    ([(0 : ℚ), 0] ∈ [[(0 : ℚ), 0], [1, 0]])
    ∧ ((1 - [(0 : ℚ), 0].sum > 1/100 → warnCheck [(0 : ℚ), 0] = true)
       ∧ (warnCheck [(0 : ℚ), 0] = true ↔ [(0 : ℚ), 0].sum < 99/100)
       ∧ (condEntropyOf (fun x => x) [[(0 : ℚ), 0], [1, 0]]) * ([[(0 : ℚ), 0], [1, 0]] : List (List ℚ)).length
           = ([[(0 : ℚ), 0], [1, 0]].map (rowEntropy (fun x => x))).sum) :=
  ⟨by simp,
   normalization_warning_amended (fun x => x) [[(0 : ℚ), 0], [1, 0]] [(0 : ℚ), 0]
     (by simp)⟩

/-! ### C9: `AKDE._ksizeROT` (kde_wrapper.py lines 116-139).

The numerics are modelled exactly: data entries are rationals, the
population variance and the interpolated percentiles are exact rational
computations, and only the final square root and the fractional power
produce (noncomputable) reals.  `np.transpose` of a rectangular array is
modelled by `transposeM`; `scipy.stats.iqr` is called with its default
`axis=None`, i.e. over the flattened array, with linear interpolation. -/

/-- Population variance (`np.std(..)^2` with the default `ddof=0`). -/
def popVar (xs : List ℚ) : ℚ :=
  let n : ℚ := xs.length
  let m : ℚ := xs.sum / n
  (xs.map (fun x => (x - m)^2)).sum / n

/-- `np.std` of one row: the square root of the population variance. -/
noncomputable def stdR (xs : List ℚ) : ℝ := Real.sqrt ((popVar xs : ℚ) : ℝ)

/-- `np.transpose` of a rectangular array given as a list of rows. -/
def transposeM (m : List (List ℚ)) : List (List ℚ) :=
  (List.range m.headI.length).map (fun j => m.map (fun r => r.getD j 0))

/-- `np.percentile(xs, 100*p)` with the default linear interpolation:
position `p * (n-1)` into the sorted data, linearly interpolated between
the two neighbouring order statistics. -/
def pctl (p : ℚ) (xs : List ℚ) : ℚ :=
  let s := xs.insertionSort (fun a b => a ≤ b)
  let pos : ℚ := p * ((s.length : ℚ) - 1)
  let i : ℕ := (⌊pos⌋).toNat
  let frac : ℚ := pos - ⌊pos⌋
  s.getD i 0 + frac * (s.getD (i+1) 0 - s.getD i 0)

/-- `scipy.stats.iqr` with default arguments: the 75th minus the 25th
percentile of the flattened data. -/
def iqrQ (xs : List ℚ) : ℚ := pctl (75/100) xs - pctl (25/100) xs

/-- `AKDE._ksizeROT` (lines 116-139).  `X = np.transpose(X)` makes the
input dim-by-N; `noIQR` is the constant 0, so the `else` branch always
runs; `iqrSig = .7413 * np.transpose(stats.iqr(np.transpose(X)))` is a
scalar (the pooled IQR of all entries, since `stats.iqr` defaults to
`axis=None`); `np.amax` of that scalar is itself, and when it is zero the
code sets `iqrSig = sig`, making `np.minimum(sig, iqrSig)` equal
`np.minimum(sig, sig)`; finally
`h = prop * np.minimum(sig, iqrSig) * np.power(N, (-1 / (4 + dim)))`. -/
noncomputable def ksizeROT (data : List (List ℚ)) : List ℝ :=
  let X := transposeM data
  let dim := X.length
  let N := X.headI.length
  let prop : ℝ := 1
  let sig : List ℝ := X.map (fun row => stdR row)
  let iqrSig : ℚ := (7413/10000) * iqrQ ((transposeM X).flatten)
  let factor : ℝ := Real.rpow (N : ℝ) (-1 / (4 + (dim : ℝ)))
  if iqrSig = 0
  then sig.map (fun s => prop * min s s * factor)
  else sig.map (fun s => prop * min s ((iqrSig : ℚ) : ℝ) * factor)

/-- Modelled from the claim's words, for comparison: per-dimension
bandwidth `min(sd_j, 0.7413 * IQR_j) * N^(-1/(4+d))` with the
per-dimension interquartile range `IQR_j`, falling back to plain standard
deviation scaling when the IQR is zero in every dimension. -/
noncomputable def claimROT (data : List (List ℚ)) : List ℝ :=
  let d := data.headI.length
  let N := data.length
  let cols := (List.range d).map (fun j => data.map (fun r => r.getD j 0))
  let factor : ℝ := Real.rpow (N : ℝ) (-1 / (4 + (d : ℝ)))
  if cols.all (fun c => iqrQ c == 0)
  then cols.map (fun c => stdR c * factor)
  else cols.map (fun c => min (stdR c) ((((7413/10000 : ℚ) * iqrQ c : ℚ)) : ℝ) * factor)

/-- A 5-sample, 2-feature data matrix: feature 0 is `[0,0,0,0,1]` (zero
per-column IQR, non-zero variance), feature 1 is `[0,1,2,3,4]`. -/
def data5 : List (List ℚ) := [[0,0],[0,1],[0,2],[0,3],[1,4]]

/-- Generic evaluator for `pctl` once the sorted list, the floor of the
interpolation position and the two neighbouring order statistics are
known. -/
theorem pctl_eval (p : ℚ) (xs s : List ℚ) (z : ℤ) (a b : ℚ)
    (hs : xs.insertionSort (fun x y => x ≤ y) = s)
    (hz : ⌊p * ((s.length : ℚ) - 1)⌋ = z)
    (ha : s.getD z.toNat 0 = a)
    (hb : s.getD (z.toNat + 1) 0 = b) :
    pctl p xs = a + (p * ((s.length : ℚ) - 1) - z) * (b - a) := by
  unfold pctl
  rw [hs]
  dsimp only
  rw [hz, ha, hb]

theorem transposeM_data5 :
    transposeM data5 = [[0,0,0,0,1],[0,1,2,3,4]] := by decide

theorem transposeM_back5 :
    transposeM [[(0:ℚ),0,0,0,1],[0,1,2,3,4]] = data5 := by decide

theorem data5_flat : data5.flatten = [0,0,0,1,0,2,0,3,1,4] := by decide

theorem sort_flat5 :
    ([0,0,0,1,0,2,0,3,1,4] : List ℚ).insertionSort (fun x y => x ≤ y)
      = [0,0,0,0,0,1,1,2,3,4] := by decide

theorem iqr_flat5 : iqrQ [0,0,0,1,0,2,0,3,1,4] = 7/4 := by
  have h75 := pctl_eval (75/100) [0,0,0,1,0,2,0,3,1,4] [0,0,0,0,0,1,1,2,3,4]
    6 1 2 sort_flat5 (by norm_num) (by decide) (by decide)
  have h25 := pctl_eval (25/100) [0,0,0,1,0,2,0,3,1,4] [0,0,0,0,0,1,1,2,3,4]
    2 0 0 sort_flat5 (by norm_num) (by decide) (by decide)
  unfold iqrQ
  rw [h75, h25]
  norm_num

theorem iqr_col0 : iqrQ [0,0,0,0,1] = 0 := by
  have hsort : ([0,0,0,0,1] : List ℚ).insertionSort (fun x y => x ≤ y)
      = [0,0,0,0,1] := by decide
  have h75 := pctl_eval (75/100) [0,0,0,0,1] [0,0,0,0,1]
    3 0 1 hsort (by norm_num) (by decide) (by decide)
  have h25 := pctl_eval (25/100) [0,0,0,0,1] [0,0,0,0,1]
    1 0 0 hsort (by norm_num) (by decide) (by decide)
  unfold iqrQ
  rw [h75, h25]
  norm_num

theorem iqr_col1 : iqrQ [0,1,2,3,4] = 2 := by
  have hsort : ([0,1,2,3,4] : List ℚ).insertionSort (fun x y => x ≤ y)
      = [0,1,2,3,4] := by decide
  have h75 := pctl_eval (75/100) [0,1,2,3,4] [0,1,2,3,4]
    3 3 4 hsort (by norm_num) (by decide) (by decide)
  have h25 := pctl_eval (25/100) [0,1,2,3,4] [0,1,2,3,4]
    1 1 2 hsort (by norm_num) (by decide) (by decide)
  unfold iqrQ
  rw [h75, h25]
  norm_num

theorem stdR_col0 : stdR [0,0,0,0,1] = 2/5 := by
  unfold stdR
  have hv : popVar [0,0,0,0,1] = 4/25 := by
    norm_num [popVar]
  rw [hv]
  rw [show ((4/25 : ℚ) : ℝ) = (2/5 : ℝ)^2 by norm_num]
  exact Real.sqrt_sq (by norm_num)

/-- Counterexample for claim C9 as stated: on `data5` (5 samples, 2
features) the code's Rule-of-Thumb bandwidth for feature 0 uses the pooled
IQR of all ten matrix entries (7/4), giving
`min(0.4, 0.7413*1.75) * 5^(-1/6) = 0.4 * 5^(-1/6) > 0`, whereas the
claimed per-dimension formula gives `min(0.4, 0.7413*0) * 5^(-1/6) = 0`
because feature 0's own IQR is zero (and feature 1's is not, so no
all-dimensions fallback applies). -/
theorem ksizeROT_pooled_iqr_counterexample :
    (2 ≤ data5.length ∧ ∀ r ∈ data5, r.length = 2)
    ∧ (ksizeROT data5).headI ≠ (claimROT data5).headI := by
  refine ⟨⟨by norm_num [data5], by decide⟩, ?_⟩
  have hcode : (ksizeROT data5).headI
      = 1 * min (stdR [0,0,0,0,1]) ((((7413/10000 : ℚ) * (7/4) : ℚ)) : ℝ)
          * Real.rpow ((5 : ℕ) : ℝ) (-1 / (4 + ((2 : ℕ) : ℝ))) := by
    simp only [ksizeROT]
    rw [transposeM_data5, transposeM_back5, data5_flat, iqr_flat5]
    rw [if_neg (by norm_num : ¬((7413/10000 : ℚ) * (7/4 : ℚ) = 0))]
    simp [List.headI]
  have hclaim : (claimROT data5).headI
      = min (stdR [0,0,0,0,1]) ((((7413/10000 : ℚ) * iqrQ [0,0,0,0,1] : ℚ)) : ℝ)
          * Real.rpow ((5 : ℕ) : ℝ) (-1 / (4 + ((2 : ℕ) : ℝ))) := by
    simp only [claimROT]
    have hcols : (List.range (data5.headI.length)).map
        (fun j => data5.map (fun r => r.getD j 0)) = [[0,0,0,0,1],[0,1,2,3,4]] := by
      decide
    rw [hcols]
    have hall : ([[(0:ℚ),0,0,0,1],[0,1,2,3,4]] : List (List ℚ)).all
        (fun c => iqrQ c == 0) = false := by
      simp only [List.all_cons, List.all_nil, iqr_col0, iqr_col1]
      norm_num
    rw [if_neg (by simp [hall])]
    simp [List.headI, data5]
  rw [hcode, hclaim, iqr_col0, stdR_col0]
  have hK : (0 : ℝ) < Real.rpow ((5 : ℕ) : ℝ) (-1 / (4 + ((2 : ℕ) : ℝ))) :=
    Real.rpow_pos_of_pos (by norm_num) _
  have hmin1 : min ((2:ℝ)/5) ((((7413/10000 : ℚ) * (7/4) : ℚ)) : ℝ) = 2/5 := by
    apply min_eq_left
    push_cast
    norm_num
  have hmin2 : min ((2:ℝ)/5) ((((7413/10000 : ℚ) * 0 : ℚ)) : ℝ) = ((((7413/10000 : ℚ) * 0 : ℚ)) : ℝ) := by
    apply min_eq_right
    push_cast
    norm_num
  rw [hmin1, hmin2]
  push_cast
  rw [mul_zero, zero_mul, one_mul]
  exact mul_ne_zero (by norm_num) (ne_of_gt hK)

theorem transposeM_length (m : List (List ℚ)) :
    (transposeM m).length = m.headI.length := by
  simp [transposeM]

theorem transposeM_getD (m : List (List ℚ)) (j : ℕ) (hj : j < m.headI.length) :
    (transposeM m).getD j [] = m.map (fun r => r.getD j 0) := by
  unfold transposeM
  rw [getD_map_of_lt _ _ j (by simpa using hj) [] 0]
  have hr : (List.range m.headI.length).getD j 0 = j := by
    rw [List.getD_eq_getElem _ _ (by simpa using hj)]
    simp
  rw [hr]

theorem transposeM_headI_length (m : List (List ℚ)) (h : 1 ≤ m.headI.length) :
    (transposeM m).headI.length = m.length := by
  have hne : (transposeM m).headI = (transposeM m).getD 0 [] := by
    cases htm : transposeM m with
    | nil =>
      exfalso
      have hlen := transposeM_length m
      rw [htm] at hlen
      simp at hlen
      omega
    | cons a l => simp
  rw [hne, transposeM_getD m 0 (by omega)]
  simp

theorem reconstruct_row (r : List ℚ) :
    (List.range r.length).map (fun j => r.getD j 0) = r := by
  induction r with
  | nil => simp
  | cons x xs ih =>
    rw [List.length_cons, List.range_succ_eq_map, List.map_cons]
    simp only [List.getD_cons_zero, List.map_map]
    have hcomp : ((fun j => (x :: xs).getD j 0) ∘ Nat.succ) = (fun j => xs.getD j 0) := by
      funext j
      simp
    rw [hcomp, ih]

theorem transposeM_transposeM (m : List (List ℚ)) (d : ℕ) (hd : 1 ≤ d)
    (hne : m ≠ []) (hrect : ∀ r ∈ m, r.length = d) :
    transposeM (transposeM m) = m := by
  have hhead : m.headI.length = d := by
    cases m with
    | nil => exact absurd rfl hne
    | cons r rs => exact hrect r (List.mem_cons_self r rs)
  have hTh : (transposeM m).headI.length = m.length :=
    transposeM_headI_length m (by omega)
  apply List.ext_getElem
  · rw [transposeM_length, hTh]
  · intro i h1 h2
    have h1m : i < m.length := h2
    have hrow : m[i].length = d := hrect m[i] (List.getElem_mem h1m)
    simp only [transposeM, List.getElem_map, List.getElem_range, List.map_map]
    rw [hhead]
    calc (List.range d).map
          ((fun r => r.getD i 0) ∘ fun j => m.map (fun r => r.getD j 0))
        = (List.range d).map (fun j => m[i].getD j 0) := by
          apply List.map_congr_left
          intro j hj
          simp only [Function.comp_apply]
          rw [getD_map_of_lt _ _ i h1m 0 []]
          rw [List.getD_eq_getElem _ _ h1m]
      _ = m[i] := by
          rw [← hrow]
          exact reconstruct_row _

/-- Claim C9 (corrected): the amended per-dimension formula for
`_ksizeROT` on an N-by-d rectangular matrix with N ≥ 2 and d ≥ 1: for each
dimension j, the bandwidth is
`min(sd_j, 0.7413 * pooled IQR) * N^(-1/(4+d))`, where the IQR is that of
all N*d matrix entries pooled (not the per-dimension IQR the original
claim states), and the IQR term is replaced by the per-dimension standard
deviation when that pooled IQR is zero.  In this exact-arithmetic model
the result is a total list of d real numbers — no NaN arises. -/
theorem ksizeROT_amended (data : List (List ℚ)) (d : ℕ) (hd : 1 ≤ d)
    (hne : data ≠ []) (hrect : ∀ r ∈ data, r.length = d)
    (hN : 2 ≤ data.length) :
    (ksizeROT data).length = d
    ∧ ∀ j, j < d →
        (ksizeROT data).getD j 0 =
          (if (7413/10000 : ℚ) * iqrQ data.flatten = 0
           then stdR (data.map (fun r => r.getD j 0))
           else min (stdR (data.map (fun r => r.getD j 0)))
             ((((7413/10000 : ℚ) * iqrQ data.flatten : ℚ)) : ℝ))
          * Real.rpow (data.length : ℝ) (-1 / (4 + (d : ℝ))) := by
  have hhead : data.headI.length = d := by
    cases data with
    | nil => exact absurd rfl hne
    | cons r rs => exact hrect r (List.mem_cons_self r rs)
  have hflat : (transposeM (transposeM data)).flatten = data.flatten := by
    rw [transposeM_transposeM data d hd hne hrect]
  have hTlen : (transposeM data).length = d := by
    rw [transposeM_length, hhead]
  have hTh : (transposeM data).headI.length = data.length :=
    transposeM_headI_length data (by omega)
  simp only [ksizeROT]
  rw [hflat, hTlen, hTh]
  constructor
  · by_cases hcond : (7413/10000 : ℚ) * iqrQ data.flatten = 0
    · rw [if_pos hcond]
      simp [hTlen]
    · rw [if_neg hcond]
      simp [hTlen]
  · intro j hj
    have hjT : j < (transposeM data).length := by omega
    have hjsig : j < ((transposeM data).map (fun row => stdR row)).length := by
      simpa using hjT
    have hsig : ((transposeM data).map (fun row => stdR row)).getD j 0
        = stdR (data.map (fun r => r.getD j 0)) := by
      rw [getD_map_of_lt _ _ j hjT 0 []]
      rw [transposeM_getD data j (by omega)]
    by_cases hcond : (7413/10000 : ℚ) * iqrQ data.flatten = 0
    · rw [if_pos hcond, if_pos hcond]
      rw [getD_map_of_lt _ _ j hjsig 0 0]
      rw [hsig, min_self, one_mul]
    · rw [if_neg hcond, if_neg hcond]
      rw [getD_map_of_lt _ _ j hjsig 0 0]
      rw [hsig, one_mul]

/-- Witness for C9's amended theorem at the concrete matrix `data5`
(N = 5 samples, d = 2 features). -/
theorem ksizeROT_amended_witness :
    ((1 ≤ 2) ∧ data5 ≠ [] ∧ (∀ r ∈ data5, r.length = 2) ∧ 2 ≤ data5.length)
    ∧ ((ksizeROT data5).length = 2
       ∧ ∀ j, j < 2 →
          (ksizeROT data5).getD j 0 =
            (if (7413/10000 : ℚ) * iqrQ data5.flatten = 0
             then stdR (data5.map (fun r => r.getD j 0))
             else min (stdR (data5.map (fun r => r.getD j 0)))
               ((((7413/10000 : ℚ) * iqrQ data5.flatten : ℚ)) : ℝ))
            * Real.rpow (data5.length : ℝ) (-1 / (4 + (2 : ℝ)))) :=
  ⟨⟨by norm_num, by simp [data5], by decide, by norm_num [data5]⟩,
   ksizeROT_amended data5 2 (by norm_num) (by simp [data5]) (by decide)
     (by norm_num [data5])⟩

/-! ### C6/C10: `AKDE.sample` (kde_wrapper.py lines 42-76).

The method is embedded derandomized: the Gaussian draws
(`np.random.normal`, line 58) and the uniform draws
(`np.random.uniform`, line 63) enter as the arguments `rnd` and `u`.
Python list indexing and the numpy row assignment are bounds-checked and
return an `IndexError`; `np.amax` of an empty array raises a
`ValueError`; the shape assertions of lines 74-75 raise on failure. -/

/-- The failure modes of `AKDE.sample`. -/
inductive SampleErr where
  | indexError
  | valueError
  | assertionError
deriving DecidableEq, Repr

/-- Running total used by `np.cumsum`. -/
def cumsumAux (acc : ℚ) : List ℚ → List ℚ
  | [] => []
  | x :: xs => (acc + x) :: cumsumAux (acc + x) xs

/-- `np.cumsum(self._weights)` (line 61). -/
def cumsum (xs : List ℚ) : List ℚ := cumsumAux 0 xs

/-- `np.amax` of a vector (meaningful only for non-empty input, as in
numpy). -/
def amaxQ (xs : List ℚ) : ℚ := xs.foldl max xs.headI

/-- Lines 61-62: the kernel weights as a normalized cumulative sum,
`w = np.cumsum(self._weights); w /= np.amax(w)`. -/
def normCumW (weights : List ℚ) : List ℚ :=
  (cumsum weights).map (fun x => x / amaxQ (cumsum weights))

/-- Lines 63-64: `t = np.sort(np.random.uniform(size=(n,))).tolist()`
followed by `t.append(1.)`. -/
def thresholds (u : List ℚ) : List ℚ :=
  (u.insertionSort (fun a b => a ≤ b)) ++ [1]

/-- Line 71's row value: `self._data[i, :] + (bw[i, :] * randnums[ii, :])`
(the tiled bandwidth row `bw[i, :]` equals `self._bw`). -/
def mixRow (center bw rndRow : List ℚ) : List ℚ :=
  List.zipWith (fun c s => c + s) center
    (List.zipWith (fun b r => b * r) bw rndRow)

/-- The inner `while w[i] > t[ii]` loop of lines 70-72 for one kernel:
reads `t[ii]` (an out-of-range Python list index raises), writes row `ii`
of `points` (an out-of-range numpy row assignment raises), and advances
`ii`.  The explicit `fuel` only bounds the recursion; called with
`fuel ≥ t.length - ii` it never cuts the loop short, because `ii`
strictly increases while staying below `t.length` — at `fuel = 0` the
pointer is already out of range and the result is the same
`IndexError` the unbounded loop would raise. -/
def innerLoopF (bw : List ℚ) (rnd : List (List ℚ)) (t : List ℚ) :
    ℕ → ℚ → List ℚ → List (List ℚ) → ℕ → Except SampleErr (List (List ℚ) × ℕ)
  | 0, _, _, _, _ => .error .indexError
  | fuel + 1, wi, center, pts, ii =>
    if ii < t.length then
      if t.getD ii 0 < wi then
        if ii < pts.length then
          innerLoopF bw rnd t fuel wi center
            (pts.set ii (mixRow center bw (rnd.getD ii []))) (ii + 1)
        else .error .indexError
      else .ok (pts, ii)
    else .error .indexError

/-- The outer `for i in range(self._n_kernels)` loop of lines 67-72,
walking the kernels paired with their normalized cumulative weights. -/
def outerLoop (bw : List ℚ) (rnd : List (List ℚ)) (t : List ℚ) :
    List (List ℚ × ℚ) → List (List ℚ) → ℕ → Except SampleErr (List (List ℚ) × ℕ)
  | [], pts, ii => .ok (pts, ii)
  | cw :: rest, pts, ii =>
    match innerLoopF bw rnd t t.length cw.2 cw.1 pts ii with
    | .error e => .error e
    | .ok (pts2, ii2) => outerLoop bw rnd t rest pts2 ii2

/-- `AKDE.sample` (lines 42-76), derandomized.  `points` starts as the
`n`-by-`d` zero matrix (line 57); the walk starts at `ii = 1` (line 66);
afterwards the assertions of lines 74-75 check the shape of `points`. -/
def sampleRun (data : List (List ℚ)) (weights bw : List ℚ) (nSamples : ℕ)
    (rnd : List (List ℚ)) (u : List ℚ) : Except SampleErr (List (List ℚ)) :=
  if (cumsum weights).isEmpty then .error .valueError
  else
    let w := normCumW weights
    let t := thresholds u
    let pts0 := List.replicate nSamples (List.replicate data.headI.length (0 : ℚ))
    match outerLoop bw rnd t (data.zip w) pts0 1 with
    | .error e => .error e
    | .ok (pts, _) =>
      if pts.length = nSamples ∧ ∀ r ∈ pts, r.length = data.headI.length
      then .ok pts
      else .error .assertionError

/-- The kernel selected for a threshold `τ` by the cumulative-weight walk:
the first kernel index whose normalized cumulative weight exceeds `τ`. -/
def hitsFirst (w : List ℚ) (τ : ℚ) (k : ℕ) : Prop :=
  k < w.length ∧ τ < w.getD k 0 ∧ ∀ k2, k2 < k → w.getD k2 0 ≤ τ

/-- Decidable equality of `Except` outcomes, for concrete evaluations. -/
instance {ε α : Type} [DecidableEq ε] [DecidableEq α] : DecidableEq (Except ε α) :=
  fun x y =>
  match x, y with
  | .ok a, .ok b =>
    if h : a = b then isTrue (by rw [h])
    else isFalse (by intro hc; cases hc; exact h rfl)
  | .ok _, .error _ => isFalse (by intro hc; cases hc)
  | .error _, .ok _ => isFalse (by intro hc; cases hc)
  | .error e, .error f =>
    if h : e = f then isTrue (by rw [h])
    else isFalse (by intro hc; cases hc; exact h rfl)

theorem getD_set_ne {α : Type} (l : List α) (i j : ℕ) (v d : α) (hij : i ≠ j) :
    (l.set i v).getD j d = l.getD j d := by
  by_cases hj : j < l.length
  · rw [List.getD_eq_getElem _ _ (by simpa using hj), List.getD_eq_getElem _ _ hj]
    exact List.getElem_set_ne hij _
  · rw [List.getD_eq_default _ _ (by simpa using Nat.le_of_not_lt hj),
      List.getD_eq_default _ _ (Nat.le_of_not_lt hj)]

theorem getD_set_self {α : Type} (l : List α) (i : ℕ) (v d : α) (hi : i < l.length) :
    (l.set i v).getD i d = v := by
  rw [List.getD_eq_getElem _ _ (by simpa using hi)]
  exact List.getElem_set_self _

theorem headI_mem_of_ne_nil {α : Type} [Inhabited α] (l : List α) (h : l ≠ []) :
    l.headI ∈ l := by
  cases l with
  | nil => exact absurd rfl h
  | cons x xs => simp

theorem cumsumAux_length (acc : ℚ) (xs : List ℚ) :
    (cumsumAux acc xs).length = xs.length := by
  induction xs generalizing acc with
  | nil => rfl
  | cons x xs ih => simp [cumsumAux, ih]

theorem cumsum_length (xs : List ℚ) : (cumsum xs).length = xs.length :=
  cumsumAux_length 0 xs

theorem cumsumAux_getD (xs : List ℚ) :
    ∀ (acc : ℚ) (k : ℕ), k < xs.length →
      (cumsumAux acc xs).getD k 0 = acc + (xs.take (k+1)).sum := by
  induction xs with
  | nil => intro acc k h; simp at h
  | cons x xs ih =>
    intro acc k h
    cases k with
    | zero => simp [cumsumAux]
    | succ k =>
      simp only [cumsumAux, List.getD_cons_succ]
      rw [ih (acc + x) k (by simpa using h)]
      rw [List.take_succ_cons, List.sum_cons]
      ring

theorem cumsum_getD (xs : List ℚ) (k : ℕ) (h : k < xs.length) :
    (cumsum xs).getD k 0 = (xs.take (k+1)).sum := by
  rw [cumsum, cumsumAux_getD xs 0 k h, zero_add]

theorem sum_take_mono (xs : List ℚ) (hnn : ∀ x ∈ xs, 0 ≤ x) :
    ∀ a b, a ≤ b → (xs.take a).sum ≤ (xs.take b).sum := by
  intro a b hab
  induction b, hab using Nat.le_induction with
  | base => exact le_refl _
  | succ b hb ih =>
    by_cases hlen : b < xs.length
    · rw [List.sum_take_succ xs b hlen]
      have h0 : 0 ≤ xs[b] := hnn _ (List.getElem_mem hlen)
      linarith
    · rw [List.take_of_length_le (show xs.length ≤ b + 1 by omega)]
      rw [List.take_of_length_le (Nat.le_of_not_lt hlen)] at ih
      calc (xs.take a).sum ≤ xs.sum := ih
        _ = xs.sum := rfl

theorem le_foldl_max_init (l : List ℚ) : ∀ a : ℚ, a ≤ l.foldl max a := by
  induction l with
  | nil => intro a; exact le_refl a
  | cons x xs ih =>
    intro a
    calc a ≤ max a x := le_max_left a x
      _ ≤ xs.foldl max (max a x) := ih (max a x)
      _ = (x :: xs).foldl max a := rfl

theorem le_foldl_max_mem (l : List ℚ) : ∀ (a x : ℚ), x ∈ l → x ≤ l.foldl max a := by
  induction l with
  | nil => intro a x hx; simp at hx
  | cons y ys ih =>
    intro a x hx
    rcases List.mem_cons.mp hx with rfl | hx
    · calc x ≤ max a x := le_max_right a x
        _ ≤ ys.foldl max (max a x) := le_foldl_max_init ys _
        _ = (x :: ys).foldl max a := rfl
    · exact ih (max a y) x hx

theorem foldl_max_le (l : List ℚ) :
    ∀ (a b : ℚ), a ≤ b → (∀ x ∈ l, x ≤ b) → l.foldl max a ≤ b := by
  induction l with
  | nil => intro a b hab _; exact hab
  | cons y ys ih =>
    intro a b hab h
    refine ih (max a y) b (max_le hab (h y (List.mem_cons_self y ys))) ?_
    intro x hx
    exact h x (List.mem_cons_of_mem y hx)

theorem cumsum_entry_le_sum (weights : List ℚ)
    (hnn : ∀ x ∈ weights, 0 ≤ x) (x : ℚ) (hx : x ∈ cumsum weights) :
    x ≤ weights.sum := by
  rcases List.mem_iff_getElem.mp hx with ⟨k, hk, rfl⟩
  rw [← List.getD_eq_getElem _ 0 hk]
  rw [cumsum_getD weights k (by simpa [cumsum_length] using hk)]
  calc (weights.take (k+1)).sum ≤ (weights.take weights.length).sum :=
        sum_take_mono weights hnn (k+1) weights.length
          (by have := cumsum_length weights; omega)
    _ = weights.sum := by rw [List.take_length]

theorem cumsum_ne_nil (weights : List ℚ) (hne : weights ≠ []) :
    cumsum weights ≠ [] := by
  intro h
  have hl := cumsum_length weights
  rw [h] at hl
  simp at hl
  exact hne (List.length_eq_zero.mp hl.symm)

theorem cumsum_last_eq_sum (weights : List ℚ) (hne : weights ≠ []) :
    (cumsum weights).getD (weights.length - 1) 0 = weights.sum := by
  have hlen : 0 < weights.length := List.length_pos.mpr hne
  rw [cumsum_getD weights (weights.length - 1) (by omega)]
  rw [show weights.length - 1 + 1 = weights.length by omega, List.take_length]

theorem amax_cumsum_eq_sum (weights : List ℚ)
    (hnn : ∀ x ∈ weights, 0 ≤ x) (hne : weights ≠ []) :
    amaxQ (cumsum weights) = weights.sum := by
  have hlen : 0 < weights.length := List.length_pos.mpr hne
  apply le_antisymm
  · apply foldl_max_le
    · exact cumsum_entry_le_sum weights hnn _
        (headI_mem_of_ne_nil _ (cumsum_ne_nil weights hne))
    · intro x hx
      exact cumsum_entry_le_sum weights hnn x hx
  · have hmem : weights.sum ∈ cumsum weights := by
      rw [← cumsum_last_eq_sum weights hne]
      rw [List.getD_eq_getElem _ 0 (by rw [cumsum_length]; omega)]
      exact List.getElem_mem _
    exact le_foldl_max_mem _ _ _ hmem

theorem normCumW_length (weights : List ℚ) :
    (normCumW weights).length = weights.length := by
  simp [normCumW, cumsum_length]

theorem sum_pos_of_pos (weights : List ℚ) (hpos : ∀ x ∈ weights, 0 < x)
    (hne : weights ≠ []) : 0 < weights.sum :=
  List.sum_pos weights hpos hne

theorem normCumW_le_one (weights : List ℚ) (hpos : ∀ x ∈ weights, 0 < x)
    (hne : weights ≠ []) : ∀ x ∈ normCumW weights, x ≤ 1 := by
  intro x hx
  rcases List.mem_map.mp hx with ⟨y, hy, rfl⟩
  rw [amax_cumsum_eq_sum weights (fun z hz => le_of_lt (hpos z hz)) hne]
  rw [div_le_one (sum_pos_of_pos weights hpos hne)]
  exact cumsum_entry_le_sum weights (fun z hz => le_of_lt (hpos z hz)) y hy

theorem normCumW_getD_mono (weights : List ℚ) (hpos : ∀ x ∈ weights, 0 < x)
    (hne : weights ≠ []) (a b : ℕ) (hab : a ≤ b) (hb : b < weights.length) :
    (normCumW weights).getD a 0 ≤ (normCumW weights).getD b 0 := by
  have hnn : ∀ x ∈ weights, 0 ≤ x := fun z hz => le_of_lt (hpos z hz)
  have hacs : a < (cumsum weights).length := by rw [cumsum_length]; omega
  have hbcs : b < (cumsum weights).length := by rw [cumsum_length]; omega
  unfold normCumW
  rw [getD_map_of_lt _ _ a hacs 0 0, getD_map_of_lt _ _ b hbcs 0 0]
  rw [amax_cumsum_eq_sum weights hnn hne]
  apply (div_le_div_iff_of_pos_right (sum_pos_of_pos weights hpos hne)).mpr
  rw [cumsum_getD weights a (by omega), cumsum_getD weights b (by omega)]
  exact sum_take_mono weights hnn (a+1) (b+1) (by omega)

theorem normCumW_getD_last (weights : List ℚ) (hpos : ∀ x ∈ weights, 0 < x)
    (hne : weights ≠ []) :
    (normCumW weights).getD (weights.length - 1) 0 = 1 := by
  have hnn : ∀ x ∈ weights, 0 ≤ x := fun z hz => le_of_lt (hpos z hz)
  have hlen : 0 < weights.length := List.length_pos.mpr hne
  have hcs : weights.length - 1 < (cumsum weights).length := by
    rw [cumsum_length]; omega
  unfold normCumW
  rw [getD_map_of_lt _ _ _ hcs 0 0]
  rw [amax_cumsum_eq_sum weights hnn hne, cumsum_last_eq_sum weights hne]
  exact div_self (ne_of_gt (sum_pos_of_pos weights hpos hne))

theorem normCumW_getD_le_one (weights : List ℚ) (hpos : ∀ x ∈ weights, 0 < x)
    (hne : weights ≠ []) (k : ℕ) (hk : k < weights.length) :
    (normCumW weights).getD k 0 ≤ 1 := by
  apply normCumW_le_one weights hpos hne
  rw [List.getD_eq_getElem _ 0 (by rw [normCumW_length]; omega)]
  exact List.getElem_mem _

theorem thresholds_length (u : List ℚ) :
    (thresholds u).length = u.length + 1 := by
  simp [thresholds, List.length_insertionSort]

theorem thresholds_getD_last (u : List ℚ) :
    (thresholds u).getD u.length 0 = 1 := by
  unfold thresholds
  have hlen : (u.insertionSort (fun a b => a ≤ b)).length = u.length :=
    List.length_insertionSort _ _
  rw [List.getD_eq_getElem _ 0 (by simp [hlen])]
  rw [List.getElem_append_right (by omega)]
  simp [hlen]

theorem thresholds_getD_lt_one (u : List ℚ) (hu1 : ∀ x ∈ u, x < 1)
    (j : ℕ) (hj : j < u.length) : (thresholds u).getD j 0 < 1 := by
  unfold thresholds
  have hlen : (u.insertionSort (fun a b => a ≤ b)).length = u.length :=
    List.length_insertionSort _ _
  rw [List.getD_eq_getElem _ 0 (by simp [hlen]; omega)]
  rw [List.getElem_append_left (by omega)]
  apply hu1
  exact (List.perm_insertionSort _ u).subset (List.getElem_mem _)

theorem thresholds_sorted (u : List ℚ) (hu1 : ∀ x ∈ u, x < 1) :
    List.Sorted (fun a b : ℚ => a ≤ b) (thresholds u) := by
  unfold thresholds
  rw [List.Sorted, List.pairwise_append]
  refine ⟨List.sorted_insertionSort _ u, List.pairwise_singleton _ _, ?_⟩
  intro x hx y hy
  rcases List.mem_singleton.mp hy with rfl
  exact le_of_lt (hu1 x ((List.perm_insertionSort _ u).subset hx))

theorem thresholds_getD_mono (u : List ℚ) (hu1 : ∀ x ∈ u, x < 1)
    (a b : ℕ) (hab : a ≤ b) (hb : b < (thresholds u).length) :
    (thresholds u).getD a 0 ≤ (thresholds u).getD b 0 := by
  rcases Nat.eq_or_lt_of_le hab with rfl | hlt
  · exact le_refl _
  · have ha : a < (thresholds u).length := by omega
    rw [List.getD_eq_getElem _ 0 ha, List.getD_eq_getElem _ 0 hb]
    have hs := thresholds_sorted u hu1
    exact hs.rel_get_of_lt (show (⟨a, ha⟩ : Fin _) < ⟨b, hb⟩ from hlt)

/-- Full characterization of the inner `while` loop (lines 70-72): with
adequate fuel it never fails, writes `mixRow` into every row from the
starting pointer up to (but excluding) the exit pointer — exactly the rows
whose thresholds are strictly below the kernel's cumulative weight — and
leaves every other row untouched. -/
theorem innerLoopF_spec (bw : List ℚ) (rnd : List (List ℚ)) (t : List ℚ) (n : ℕ)
    (ht : t.length = n + 1) (hlast : t.getD n 0 = 1) :
    ∀ (fuel : ℕ) (wi : ℚ) (center : List ℚ) (pts : List (List ℚ)) (ii : ℕ),
      pts.length = n → ii ≤ n → wi ≤ 1 → t.length - ii ≤ fuel →
      ∃ pts2 ii2,
        innerLoopF bw rnd t fuel wi center pts ii = .ok (pts2, ii2)
        ∧ ii ≤ ii2 ∧ ii2 ≤ n
        ∧ pts2.length = n
        ∧ wi ≤ t.getD ii2 0
        ∧ (∀ j, ii ≤ j → j < ii2 →
            t.getD j 0 < wi
            ∧ pts2.getD j [] = mixRow center bw (rnd.getD j []))
        ∧ (∀ j, j < ii ∨ ii2 ≤ j → pts2.getD j [] = pts.getD j []) := by
  intro fuel
  induction fuel with
  | zero =>
    intro wi center pts ii hpts hii hwi hfuel
    exfalso
    omega
  | succ fuel ih =>
    intro wi center pts ii hpts hii hwi hfuel
    simp only [innerLoopF]
    have hiilt : ii < t.length := by omega
    rw [if_pos hiilt]
    by_cases hcmp : t.getD ii 0 < wi
    · rw [if_pos hcmp]
      have hiin : ii < n := by
        rcases Nat.lt_or_ge ii n with h | h
        · exact h
        · exfalso
          have heq : ii = n := by omega
          rw [heq, hlast] at hcmp
          linarith
      rw [if_pos (show ii < pts.length by omega)]
      obtain ⟨pts2, ii2, heq, h1, h2, h3, h4, h5, h6⟩ :=
        ih wi center (pts.set ii (mixRow center bw (rnd.getD ii []))) (ii+1)
          (by simpa using hpts) (by omega) hwi (by omega)
      refine ⟨pts2, ii2, heq, by omega, h2, h3, h4, ?_, ?_⟩
      · intro j hj1 hj2
        rcases Nat.eq_or_lt_of_le hj1 with rfl | hj1'
        · refine ⟨hcmp, ?_⟩
          rw [h6 ii (Or.inl (by omega))]
          exact getD_set_self pts ii _ [] (by omega)
        · exact h5 j (by omega) hj2
      · intro j hj
        rcases hj with hj | hj
        · rw [h6 j (Or.inl (by omega))]
          exact getD_set_ne pts ii j _ [] (by omega)
        · rw [h6 j (Or.inr hj)]
          exact getD_set_ne pts ii j _ [] (by omega)
    · rw [if_neg hcmp]
      exact ⟨pts, ii, rfl, le_refl _, hii, hpts, le_of_not_lt hcmp,
        fun j hj1 hj2 => absurd hj2 (by omega),
        fun j _ => rfl⟩

/-- Characterization of the kernel walk (lines 66-72): starting from row
pointer 1, the walk never fails, every row strictly between 1 and the
final pointer holds the sample of the first kernel whose cumulative weight
exceeds that row's threshold, and rows 0 and beyond the final pointer are
untouched. -/
theorem outerLoop_spec (data : List (List ℚ)) (w bw : List ℚ)
    (rnd : List (List ℚ)) (t : List ℚ) (n : ℕ)
    (hzw : w.length = data.length)
    (hwle : ∀ k, k < w.length → w.getD k 0 ≤ 1)
    (ht : t.length = n + 1) (hlast : t.getD n 0 = 1)
    (htmono : ∀ a b, a ≤ b → b < t.length → t.getD a 0 ≤ t.getD b 0) :
    ∀ (m i : ℕ) (pts : List (List ℚ)) (ii : ℕ),
      data.length - i ≤ m →
      pts.length = n → 1 ≤ ii → ii ≤ n →
      (∀ k, k < i → w.getD k 0 ≤ t.getD ii 0) →
      (∀ j, 1 ≤ j → j < ii →
        ∃ k, hitsFirst w (t.getD j 0) k ∧ k < i
          ∧ pts.getD j [] = mixRow (data.getD k []) bw (rnd.getD j [])) →
      ∃ pts2 ii2,
        outerLoop bw rnd t ((data.zip w).drop i) pts ii = .ok (pts2, ii2)
        ∧ pts2.length = n ∧ ii ≤ ii2 ∧ ii2 ≤ n
        ∧ (∀ k, k < data.length → w.getD k 0 ≤ t.getD ii2 0)
        ∧ (∀ j, 1 ≤ j → j < ii2 →
            ∃ k, hitsFirst w (t.getD j 0) k
              ∧ pts2.getD j [] = mixRow (data.getD k []) bw (rnd.getD j []))
        ∧ (∀ j, j = 0 ∨ ii2 ≤ j → pts2.getD j [] = pts.getD j []) := by
  intro m
  induction m with
  | zero =>
    intro i pts ii hm hpts hii1 hiin hprev hrows
    have hdrop : (data.zip w).drop i = [] := by
      apply List.drop_eq_nil_of_le
      rw [List.length_zip]
      omega
    rw [hdrop]
    refine ⟨pts, ii, rfl, hpts, le_refl _, hiin, ?_, ?_, fun j _ => rfl⟩
    · intro k hk
      exact hprev k (by omega)
    · intro j hj1 hj2
      obtain ⟨k, hk1, _, hk3⟩ := hrows j hj1 hj2
      exact ⟨k, hk1, hk3⟩
  | succ m ih =>
    intro i pts ii hm hpts hii1 hiin hprev hrows
    by_cases hi : i < data.length
    · have hbound : i < (data.zip w).length := by
        rw [List.length_zip]
        omega
      have hidrop : (data.zip w).drop i
          = (data.zip w)[i] :: (data.zip w).drop (i+1) :=
        List.drop_eq_getElem_cons hbound
      have hzipi : (data.zip w)[i] = (data.getD i [], w.getD i 0) := by
        rw [List.getElem_zip]
        rw [List.getD_eq_getElem data [] hi, List.getD_eq_getElem w 0 (by omega)]
      obtain ⟨pts', ii', heqI, hA, hB, hC, hD, hE, hF⟩ :=
        innerLoopF_spec bw rnd t n ht hlast t.length (w.getD i 0)
          (data.getD i []) pts ii hpts hiin (hwle i (by omega)) (by omega)
      have hprev2 : ∀ k, k < i + 1 → w.getD k 0 ≤ t.getD ii' 0 := by
        intro k hk
        rcases Nat.lt_or_ge k i with hki | hki
        · calc w.getD k 0 ≤ t.getD ii 0 := hprev k hki
            _ ≤ t.getD ii' 0 := htmono ii ii' hA (by omega)
        · have hke : k = i := by omega
          rw [hke]
          exact hD
      have hrows2 : ∀ j, 1 ≤ j → j < ii' →
          ∃ k, hitsFirst w (t.getD j 0) k ∧ k < i + 1
            ∧ pts'.getD j [] = mixRow (data.getD k []) bw (rnd.getD j []) := by
        intro j hj1 hj2
        rcases Nat.lt_or_ge j ii with hji | hji
        · obtain ⟨k, hk1, hk2, hk3⟩ := hrows j hj1 hji
          refine ⟨k, hk1, by omega, ?_⟩
          rw [hF j (Or.inl hji)]
          exact hk3
        · obtain ⟨hjt, hjv⟩ := hE j hji hj2
          refine ⟨i, ⟨by omega, hjt, ?_⟩, by omega, hjv⟩
          intro k2 hk2
          calc w.getD k2 0 ≤ t.getD ii 0 := hprev k2 hk2
            _ ≤ t.getD j 0 := htmono ii j hji (by omega)
      obtain ⟨pts2, ii2, heqO, k1, k2, k3, k4, k5, k6⟩ :=
        ih (i+1) pts' ii' (by omega) hC (by omega) hB hprev2 hrows2
      refine ⟨pts2, ii2, ?_, k1, by omega, k3, k4, k5, ?_⟩
      · rw [hidrop]
        simp only [outerLoop, hzipi]
        rw [heqI]
        exact heqO
      · intro j hj
        rcases hj with hj | hj
        · rw [k6 j (Or.inl hj), hj]
          rw [hF 0 (Or.inl (by omega))]
        · rw [k6 j (Or.inr hj)]
          exact hF j (Or.inr (by omega))
    · have hdrop : (data.zip w).drop i = [] := by
        apply List.drop_eq_nil_of_le
        rw [List.length_zip]
        omega
      rw [hdrop]
      refine ⟨pts, ii, rfl, hpts, le_refl _, hiin, ?_, ?_, fun j _ => rfl⟩
      · intro k hk
        exact hprev k (by omega)
      · intro j hj1 hj2
        obtain ⟨k, hk1, _, hk3⟩ := hrows j hj1 hj2
        exact ⟨k, hk1, hk3⟩

/-- Row length of a written sample row. -/
theorem mixRow_length (center bw rndRow : List ℚ) :
    (mixRow center bw rndRow).length
      = min center.length (min bw.length rndRow.length) := by
  simp [mixRow]

/-- Master characterization of `AKDE.sample` for n ≥ 1 under the
shapes the estimator guarantees (rectangular data with at least one
kernel, positive weights of matching length, bandwidth and noise rows of
the fitted dimensionality, uniform thresholds below 1): the run succeeds,
the assertions pass, row 0 is never written and stays the zero vector,
and each row j ≥ 1 holds center + scaled noise for the first kernel whose
normalized cumulative weight exceeds threshold j. -/
theorem sampleRun_spec (data : List (List ℚ)) (weights bw : List ℚ) (n : ℕ)
    (rnd : List (List ℚ)) (u : List ℚ) (d : ℕ)
    (hne : data ≠ []) (hrect : ∀ r ∈ data, r.length = d)
    (hwlen : weights.length = data.length)
    (hwpos : ∀ x ∈ weights, 0 < x)
    (hbw : bw.length = d)
    (hrndlen : rnd.length = n)
    (hrnd : ∀ r ∈ rnd, r.length = d)
    (hulen : u.length = n)
    (hu1 : ∀ x ∈ u, x < 1)
    (hn : 1 ≤ n) :
    ∃ pts, sampleRun data weights bw n rnd u = .ok pts
      ∧ pts.length = n
      ∧ (∀ r ∈ pts, r.length = d)
      ∧ pts.getD 0 [] = List.replicate d 0
      ∧ ∀ j, 1 ≤ j → j < n →
          ∃ k, hitsFirst (normCumW weights) ((thresholds u).getD j 0) k
            ∧ pts.getD j [] = mixRow (data.getD k []) bw (rnd.getD j []) := by
  have hwne : weights ≠ [] := by
    intro h
    rw [h] at hwlen
    simp at hwlen
    exact hne (List.length_eq_zero.mp hwlen.symm)
  have hhead : data.headI.length = d := by
    cases data with
    | nil => exact absurd rfl hne
    | cons r rs => exact hrect r (List.mem_cons_self r rs)
  have hzw : (normCumW weights).length = data.length := by
    rw [normCumW_length, hwlen]
  have hwle : ∀ k, k < (normCumW weights).length →
      (normCumW weights).getD k 0 ≤ 1 := by
    intro k hk
    exact normCumW_getD_le_one weights hwpos hwne k
      (by rw [normCumW_length] at hk; exact hk)
  have ht : (thresholds u).length = n + 1 := by
    rw [thresholds_length, hulen]
  have hlast : (thresholds u).getD n 0 = 1 := by
    rw [← hulen]
    exact thresholds_getD_last u
  have htmono : ∀ a b, a ≤ b → b < (thresholds u).length →
      (thresholds u).getD a 0 ≤ (thresholds u).getD b 0 :=
    fun a b hab hb => thresholds_getD_mono u hu1 a b hab hb
  obtain ⟨pts2, ii2, heq, k1, k2, k3, k4, k5, k6⟩ :=
    outerLoop_spec data (normCumW weights) bw rnd (thresholds u) n
      hzw hwle ht hlast htmono data.length 0
      (List.replicate n (List.replicate data.headI.length (0 : ℚ))) 1
      (by omega) (by simp) (le_refl 1) hn
      (fun k hk => absurd hk (Nat.not_lt_zero k))
      (fun j hj1 hj2 => absurd (lt_of_le_of_lt hj1 hj2) (lt_irrefl 1))
  have hii2 : ii2 = n := by
    by_contra hcon
    have hii2n : ii2 < n := by omega
    have h1le : (1 : ℚ) ≤ (thresholds u).getD ii2 0 := by
      have := k4 (data.length - 1)
        (by have := List.length_pos.mpr hne; omega)
      rw [show data.length - 1 = weights.length - 1 by omega] at this
      rw [normCumW_getD_last weights hwpos hwne] at this
      exact this
    have hlt : (thresholds u).getD ii2 0 < 1 :=
      thresholds_getD_lt_one u hu1 ii2 (by omega)
    linarith
  have hrowlen : ∀ r ∈ pts2, r.length = d := by
    intro r hr
    rcases List.mem_iff_getElem.mp hr with ⟨j, hj, rfl⟩
    rw [← List.getD_eq_getElem pts2 [] hj]
    have hjn : j < n := by rw [k1] at hj; exact hj
    rcases Nat.eq_zero_or_pos j with rfl | hjpos
    · rw [k6 0 (Or.inl rfl)]
      rw [List.getD_eq_getElem _ [] (by simp; omega)]
      simp [hhead]
    · obtain ⟨k, hk, hval⟩ := k5 j (by omega) (by omega)
      rw [hval, mixRow_length]
      have hkd : k < data.length := by
        have := hk.1
        rw [hzw] at this
        exact this
      have hcen : (data.getD k []).length = d := by
        rw [List.getD_eq_getElem data [] hkd]
        exact hrect _ (List.getElem_mem hkd)
      have hrr : (rnd.getD j []).length = d := by
        rw [List.getD_eq_getElem rnd [] (by omega)]
        exact hrnd _ (List.getElem_mem (by omega))
      rw [hcen, hbw, hrr]
      simp
  refine ⟨pts2, ?_, k1, hrowlen, ?_, ?_⟩
  · unfold sampleRun
    rw [if_neg (by
      intro hcon
      exact cumsum_ne_nil weights hwne (List.isEmpty_iff.mp hcon))]
    dsimp only
    rw [List.drop_zero] at heq
    rw [heq]
    dsimp only
    rw [if_pos ⟨k1, fun r hr => by rw [hrowlen r hr, hhead]⟩]
  · rw [k6 0 (Or.inl rfl)]
    rw [List.getD_eq_getElem _ [] (by simp; omega)]
    simp [hhead]
  · intro j hj1 hj2
    rw [← hii2] at hj2
    exact k5 j hj1 hj2

/-- Counterexample for claim C6 as stated: with one kernel centered at 5,
bandwidth 1, zero noise and two thresholds, `sample(2)` succeeds but its
row 0 is the zero vector `[0]` — the walk starts writing at row index 1
(line 66, `ii = 1`), so row 0 is never emitted and equals no kernel's
center plus scaled noise (the only candidate is `mixRow [5] [1] [0] = [5]`). -/
theorem sample_row_zero_counterexample :
    ∃ pts, sampleRun [[5]] [1] [1] 2 [[0],[0]] [0,0] = .ok pts
      ∧ pts.getD 0 [] = [0]
      ∧ pts.getD 0 [] ≠ mixRow [5] [1] [0] := by
  obtain ⟨pts, heq, hlen, hrows, hzero, hchar⟩ :=
    sampleRun_spec [[5]] [1] [1] 2 [[0],[0]] [0,0] 1
      (by decide) (by decide) (by decide) (by decide) (by decide)
      (by decide) (by decide) (by decide) (by decide) (by decide)
  refine ⟨pts, heq, ?_, ?_⟩
  · rw [hzero]
    rfl
  · rw [hzero]
    norm_num [mixRow, List.replicate]

/-- Claim C6 (corrected): in `sample(n)` with n ≥ 1 (and the shapes the
estimator guarantees), kernels are selected by walking the normalized
cumulative kernel weights against the sorted thresholds, but emission
starts at row index 1: row 0 of the returned matrix always remains the
zero vector, and each row j with 1 ≤ j ≤ n-1 equals the center of the
first kernel whose cumulative weight exceeds threshold j, plus Gaussian
noise scaled elementwise by the kernel bandwidth; the sample for the first
threshold is never emitted. -/
theorem sample_walk_amended (data : List (List ℚ)) (weights bw : List ℚ)
    (n : ℕ) (rnd : List (List ℚ)) (u : List ℚ) (d : ℕ)
    (hne : data ≠ []) (hrect : ∀ r ∈ data, r.length = d)
    (hwlen : weights.length = data.length)
    (hwpos : ∀ x ∈ weights, 0 < x)
    (hbw : bw.length = d)
    (hrndlen : rnd.length = n)
    (hrnd : ∀ r ∈ rnd, r.length = d)
    (hulen : u.length = n)
    (hu1 : ∀ x ∈ u, x < 1)
    (hn : 1 ≤ n) :
    ∃ pts, sampleRun data weights bw n rnd u = .ok pts
      ∧ pts.getD 0 [] = List.replicate d 0
      ∧ ∀ j, 1 ≤ j → j < n →
          ∃ k, hitsFirst (normCumW weights) ((thresholds u).getD j 0) k
            ∧ pts.getD j [] = mixRow (data.getD k []) bw (rnd.getD j []) := by
  obtain ⟨pts, h1, _, _, h4, h5⟩ :=
    sampleRun_spec data weights bw n rnd u d hne hrect hwlen hwpos hbw
      hrndlen hrnd hulen hu1 hn
  exact ⟨pts, h1, h4, h5⟩

/-- Witness for C6's amended theorem: one kernel centered at 5 with
bandwidth 1, two samples, zero noise; row 0 stays `[0]`, row 1 is written. -/
theorem sample_walk_amended_witness :
    ((∀ x ∈ ([1] : List ℚ), 0 < x) ∧ (∀ x ∈ ([0, 0] : List ℚ), x < 1))
    ∧ ∃ pts, sampleRun [[5]] [1] [1] 2 [[0],[0]] [0,0] = .ok pts
        ∧ pts.getD 0 [] = List.replicate 1 0
        ∧ ∀ j, 1 ≤ j → j < 2 →
            ∃ k, hitsFirst (normCumW [1]) ((thresholds [0,0]).getD j 0) k
              ∧ pts.getD j [] = mixRow ([[(5:ℚ)]].getD k []) [1] ([[(0:ℚ)],[0]].getD j []) :=
  ⟨⟨by decide, by decide⟩,
   sample_walk_amended [[5]] [1] [1] 2 [[0],[0]] [0,0] 1
     (by decide) (by decide) (by decide) (by decide) (by decide)
     (by decide) (by decide) (by decide) (by decide) (by decide)⟩

/-- Counterexample for claim C10 as stated: `sample(0)` does not return a
0-row matrix.  With `n = 0` the threshold list is the single sentinel
`[1.0]`, and the first kernel's `while w[i] > t[ii]` test reads `t[1]`,
which raises an `IndexError` before the shape assertions are reached. -/
theorem sample_n_zero_counterexample :
    sampleRun [[5]] [1] [1] 0 [] [] = .error .indexError := by decide

/-- Claim C10 (corrected): for every fitted estimator (at least one
kernel, rectangular data of dimensionality d, positive weights, bandwidth
of length d) and every n ≥ 1 with noise and threshold draws of the shapes
the method creates, `sample(n)` returns exactly n rows of exactly d
columns and the internal shape assertions never fail; the claim's `n = 0`
case instead raises an `IndexError` (see the counterexample). -/
theorem sample_shape_amended (data : List (List ℚ)) (weights bw : List ℚ)
    (n : ℕ) (rnd : List (List ℚ)) (u : List ℚ) (d : ℕ)
    (hne : data ≠ []) (hrect : ∀ r ∈ data, r.length = d)
    (hwlen : weights.length = data.length)
    (hwpos : ∀ x ∈ weights, 0 < x)
    (hbw : bw.length = d)
    (hrndlen : rnd.length = n)
    (hrnd : ∀ r ∈ rnd, r.length = d)
    (hulen : u.length = n)
    (hu1 : ∀ x ∈ u, x < 1)
    (hn : 1 ≤ n) :
    ∃ pts, sampleRun data weights bw n rnd u = .ok pts
      ∧ pts.length = n
      ∧ ∀ r ∈ pts, r.length = d := by
  obtain ⟨pts, h1, h2, h3, _, _⟩ :=
    sampleRun_spec data weights bw n rnd u d hne hrect hwlen hwpos hbw
      hrndlen hrnd hulen hu1 hn
  exact ⟨pts, h1, h2, h3⟩

/-- Witness for C10's amended theorem: one kernel, one sample. -/
theorem sample_shape_amended_witness :
    ((∀ x ∈ ([1] : List ℚ), 0 < x) ∧ (∀ x ∈ ([0] : List ℚ), x < 1))
    ∧ ∃ pts, sampleRun [[5]] [1] [1] 1 [[0]] [0] = .ok pts
        ∧ pts.length = 1
        ∧ ∀ r ∈ pts, r.length = 1 :=
  ⟨⟨by decide, by decide⟩,
   sample_shape_amended [[5]] [1] [1] 1 [[0]] [0] 1
     (by decide) (by decide) (by decide) (by decide) (by decide)
     (by decide) (by decide) (by decide) (by decide) (by decide)⟩
